import Mathlib

/-!
# Verification of `multiflight` (batch request coalescing)

A shallow embedding of `multiflight.go`: a singleflight-style group that
coalesces batch key lookups.  Go's `Group[K,V].Do(ctx, keys, load)` registers
an `ent` per distinct key under a mutex, invokes the loader once for the
newly-registered ("miss") keys, fans the outcome out to every `ent`
(removing each from the registry), then assembles the result by iterating
the resolved entries in input order.

Two levels of modelling:

* a functional model of one sequential `Do` call starting from an empty
  registry (the only registry state reachable single-threadedly, since every
  registered `ent` is completed and removed before `Do` returns);
* an interleaved multi-caller state machine (atomic register / dispatch /
  finish steps) for the concurrency properties (coalescing, registry
  emptiness under arbitrary interleavings).
-/

namespace Multiflight

/-- Go `error` values as seen by `multiflight.go`: the package-internal
sentinel `errResultNotFound` (`errors.New("result not found")`, line 13) and
every other error value, indexed by its message.  `errors.Is(e,
errResultNotFound)` is modelled as `e = resultNotFound`; a loader error that
matches the sentinel (via `errors.Is`) is modelled by the loader returning
`resultNotFound` itself. -/
inductive GoErr where
  | resultNotFound : GoErr
  | err (msg : String) : GoErr
deriving DecidableEq, Repr

/-- Go `map[K]V`, modelled as an association list with (by construction)
at most one binding per key. -/
abbrev GoMap (K V : Type) := List (K × V)

variable {C K V : Type}

/-- Go map read `m[k]` (`v, has := m[k]`). -/
def mapGet [DecidableEq K] : GoMap K V → K → Option V
  | [], _ => none
  | (k', v) :: rest, k => if k' = k then some v else mapGet rest k

/-- Go map write `m[k] = v`: replaces the binding of `k` if present,
otherwise appends it. -/
def mapPut [DecidableEq K] : GoMap K V → K → V → GoMap K V
  | [], k, v => [(k, v)]
  | (k', v') :: rest, k, v =>
    if k' = k then (k, v) :: rest else (k', v') :: mapPut rest k v

/-- Go map delete `delete(m, k)`. -/
def mapDel [DecidableEq K] : GoMap K V → K → GoMap K V
  | [], _ => []
  | (k', v') :: rest, k =>
    if k' = k then mapDel rest k else (k', v') :: mapDel rest k

/-- The loader type (`multiflight.go` line 17):
`Loader[K,V] = func(ctx, keys []K) (map[K]V, error)`.  The context is an
opaque value forwarded verbatim. -/
abbrev Loader (C K V : Type) := C → List K → Except GoErr (GoMap K V)

/-- The registration loop of `Do` (lines 49-60) keeps the first occurrence
of each key as a miss: a key already registered earlier (here: earlier in
the same call, `seen`) resolves to the existing entry. -/
def dedupFirst [DecidableEq K] (seen : List K) : List K → List K
  | [] => []
  | k :: ks => if k ∈ seen then dedupFirst seen ks else k :: dedupFirst (k :: seen) ks

/-- The keys of the miss entries of one `Do` call that starts from an empty
registry: the input keys with only the first occurrence of each kept, in
input order (lines 49-60: every first occurrence is a miss, later
occurrences hit the entry stored at line 57). -/
def missKeys [DecidableEq K] (keys : List K) : List K := dedupFirst [] keys

/-- The result one `ent` receives from `doLoad`'s fan-out (lines 93-110):
on loader failure every entry of the batch gets that error (lines 94-98);
on success an entry gets its value from the returned map, or the
`errResultNotFound` sentinel when its key is absent (lines 102-110). -/
def entResult [DecidableEq K] (out : Except GoErr (GoMap K V)) (k : K) : Except GoErr V :=
  match out with
  | .error e => .error e
  | .ok vals =>
    match mapGet vals k with
    | some v => .ok v
    | none => .error .resultNotFound

/-- The result-assembly loop of `Do` (lines 68-80), over the resolved
entries in input order, each carrying its key and completed outcome:
an `errResultNotFound` entry is skipped (lines 73-75), any other error is
returned at once with a nil map (line 77), a value is written into the
result map (line 79); if the loop finishes, the map and a nil error are
returned (line 82). -/
def waitLoop [DecidableEq K] :
    List (K × Except GoErr V) → GoMap K V → Option (GoMap K V) × Option GoErr
  | [], acc => (some acc, none)
  | (k, r) :: rest, acc =>
    match r with
    | .error e => if e = .resultNotFound then waitLoop rest acc else (none, some e)
    | .ok v => waitLoop rest (mapPut acc k v)

/-- The resolved entries of one sequential `Do` call from the empty
registry: one entry per input-key occurrence (line 58 appends to `ents`
for hits and misses alike); duplicate occurrences share the entry of the
first occurrence (line 50), hence carry the same outcome.  All entries are
completed by the single `doLoad` call on `missKeys keys`. -/
def entsOf [DecidableEq K] (ctx : C) (keys : List K) (load : Loader C K V) :
    List (K × Except GoErr V) :=
  keys.map (fun k => (k, entResult (load ctx (missKeys keys)) k))

/-- One sequential `Do(ctx, keys, load)` call (lines 40-83) from the empty
registry, returning Go's `(map[K]V, error)` pair: `(nil, e)` on failure,
`(result, nil)` on success.  When `keys = []` there are no entries and no
miss entries; the loader is then never invoked (line 64's
`len(missEnts) > 0` guard, observable through `loaderCalls`) and the
loop returns the empty map untouched. -/
def Do [DecidableEq K] (ctx : C) (keys : List K) (load : Loader C K V) :
    Option (GoMap K V) × Option GoErr :=
  waitLoop (entsOf ctx keys load) []

/-- The loader invocations performed by one sequential `Do` call: `doLoad`
is called exactly once, with the miss keys, iff `missEnts` is non-empty
(lines 64-66, 86-92). -/
def loaderCalls [DecidableEq K] (keys : List K) : List (List K) :=
  if missKeys keys = [] then [] else [missKeys keys]

/-! ### Concrete loaders used to evaluate the theorems on the spec's scenarios. -/

/-- A loader whose failure matches the internal `errResultNotFound` sentinel
(in Go: an error for which `errors.Is(err, errResultNotFound)` holds, e.g. an
error type whose `Is` method matches it, or a wrapping of the sentinel). -/
def loadNF : Loader Unit Nat String := fun _ _ => .error .resultNotFound

/-- The spec's loader-failure scenario: fail with "backend unavailable". -/
def loadBackendUnavailable : Loader Unit Nat String :=
  fun _ _ => .error (.err "backend unavailable")

/-- The spec's success scenario: return `{1:"a", 3:"c"}`. -/
def loadAC : Loader Unit Nat String := fun _ _ => .ok [(1, "a"), (3, "c")]

/-- A loader echoing `"v"` for every requested key. -/
def loadEcho : Loader Unit Nat String := fun _ ks => .ok (ks.map (fun k => (k, "v")))

/-- A loader that only knows key 1. -/
def loadA1 : Loader Unit Nat String := fun _ _ => .ok [(1, "a")]

/-- A loader returning a binding for key 99 that was never requested. -/
def loadExtra : Loader Unit Nat String := fun _ _ => .ok [(1, "a"), (99, "zz")]

/-! ## Interleaved multi-caller machine

Concurrency model for the group: the shared mutable state is the entry
heap plus the mutex-guarded registry `g.m`; each caller of `Do` advances
through three atomic steps.  The registration critical section
(lines 44-61) and the fan-out critical section of `doLoad` (lines 93-110)
are atomic because they run under `g.mu`; the loader invocation itself
runs outside the lock but reads nothing of the group state, so gluing it
to the subsequent fan-out loses no observable interleaving.  `wg.Wait`
(line 70) appears as the enabling condition of the final step. -/

/-- The completion state of one `ent` (lines 20-28): `pending` while its
WaitGroup counter is still 1; `done r` once `setCallResult`/`setCallErr`
(lines 119-129) stored the value or error and called `wg.Done()`. -/
inductive EntStatus (V : Type) where
  | pending
  | done (r : Except GoErr V)

/-- A heap cell for one `ent`: its key and completion state.  Entries are
identified by their allocation index, modelling the Go pointer; an entry
outlives its removal from the registry (waiters still hold it). -/
structure EntCell (K V : Type) where
  key : K
  status : EntStatus V

/-- The control state of one caller executing `Do`: `start` before the
registration critical section (lines 44-61); `registered ents missEnts`
with miss entries registered, about to run `doLoad` (lines 63-66);
`loaded ents` after its `doLoad` (if any) completed, waiting and
assembling (lines 68-80); `finished res` returned. -/
inductive CallerPC (K V : Type) where
  | start
  | registered (ents missEnts : List Nat)
  | loaded (ents : List Nat)
  | finished (res : Option (GoMap K V) × Option GoErr)

/-- One caller of `Do`: context, key list, loader, control state. -/
structure Caller (C K V : Type) where
  ctx : C
  keys : List K
  load : Loader C K V
  pc : CallerPC K V

/-- The machine state: the entry heap, the registry `g.m` (key → entry
id), the callers, and the log of loader invocations (their key lists). -/
structure GState (C K V : Type) where
  heap : List (EntCell K V)
  reg : GoMap K Nat
  callers : List (Caller C K V)
  calls : List (List K)

/-- The registration loop (lines 49-60) over one caller's keys: a key
found in the registry reuses its entry (lines 50-52); otherwise a fresh
pending entry is allocated, registered (line 57) and recorded as a miss
(lines 54-59).  Returns the new heap and registry together with the
caller's `ents` and `missEnts` (entry ids, in input order). -/
def registerKeys [DecidableEq K] (heap : List (EntCell K V)) (reg : GoMap K Nat) :
    List K → List (EntCell K V) × GoMap K Nat × List Nat × List Nat
  | [] => (heap, reg, [], [])
  | k :: ks =>
    match mapGet reg k with
    | some eid =>
      match registerKeys heap reg ks with
      | (heap', reg', ents, miss) => (heap', reg', eid :: ents, miss)
    | none =>
      match registerKeys (heap ++ [⟨k, .pending⟩]) (mapPut reg k heap.length) ks with
      | (heap', reg', ents, miss) =>
        (heap', reg', heap.length :: ents, heap.length :: miss)

/-- Update the list cell at an index in place (the Go write through the
`*ent` pointer). -/
def modifyAt : List α → Nat → (α → α) → List α
  | [], _, _ => []
  | x :: xs, 0, f => f x :: xs
  | x :: xs, n + 1, f => x :: modifyAt xs n f

/-- The fan-out of `doLoad` (lines 93-110): every entry of the batch is
completed exactly once — with the loader's error on failure, with its
value or the not-found sentinel on success (`entResult`) — via
`setCallResult`/`setCallErr` (lines 119-129). -/
def completeEnts [DecidableEq K] (out : Except GoErr (GoMap K V)) :
    List (EntCell K V) → List Nat → List (EntCell K V)
  | heap, [] => heap
  | heap, eid :: rest =>
    completeEnts out
      (modifyAt heap eid (fun c => ⟨c.key, .done (entResult out c.key)⟩)) rest

/-- `delete(g.m, e.key)` for every entry of the batch (lines 122, 128),
in the same critical section as the completion. -/
def removeKeys [DecidableEq K] : GoMap K Nat → List K → GoMap K Nat
  | reg, [] => reg
  | reg, k :: ks => removeKeys (mapDel reg k) ks

/-- The key list of a batch of entry ids (lines 87-90), defined when all
ids are allocated. -/
def entKeys (heap : List (EntCell K V)) : List Nat → Option (List K)
  | [] => some []
  | eid :: rest =>
    match heap.get? eid with
    | none => none
    | some c =>
      match entKeys heap rest with
      | none => none
      | some ks => some (c.key :: ks)

/-- The completed outcomes of a caller's entries, in input order; `none`
while any of them is still pending (some `wg.Wait`, line 70, would still
block). -/
def entOutcomes (heap : List (EntCell K V)) :
    List Nat → Option (List (K × Except GoErr V))
  | [] => some []
  | eid :: rest =>
    match heap.get? eid with
    | none => none
    | some c =>
      match c.status with
      | .pending => none
      | .done r =>
        match entOutcomes heap rest with
        | none => none
        | some l => some ((c.key, r) :: l)

/-- A scheduling action: which caller performs which atomic step. -/
inductive Act where
  | reg (i : Nat)
  | dispatch (i : Nat)
  | finish (i : Nat)

/-- Caller `i`'s registration critical section (lines 44-61): under the
group lock, resolve every key against the registry, allocating fresh
pending entries for the misses.  A caller with no misses skips `doLoad`
(line 64's guard) and goes straight to waiting. -/
def stepRegister [DecidableEq K] (s : GState C K V) (i : Nat) :
    Option (GState C K V) :=
  match s.callers.get? i with
  | none => none
  | some c =>
    match c.pc with
    | .start =>
      match registerKeys s.heap s.reg c.keys with
      | (heap', reg', ents, missEnts) =>
        some { heap := heap', reg := reg',
               callers := s.callers.set i
                 { c with pc := if missEnts = [] then CallerPC.loaded ents
                                else CallerPC.registered ents missEnts },
               calls := s.calls }
    | _ => none

/-- Caller `i`'s `doLoad` (lines 86-111): invoke the loader once with the
batch's key list, then — under the lock — complete every miss entry and
delete it from the registry (`delete(g.m, e.key)`). -/
def stepDispatch [DecidableEq K] (s : GState C K V) (i : Nat) :
    Option (GState C K V) :=
  match s.callers.get? i with
  | none => none
  | some c =>
    match c.pc with
    | .registered ents missEnts =>
      match entKeys s.heap missEnts with
      | none => none
      | some ks =>
        some { heap := completeEnts (c.load c.ctx ks) s.heap missEnts,
               reg := removeKeys s.reg ks,
               callers := s.callers.set i { c with pc := .loaded ents },
               calls := s.calls ++ [ks] }
    | _ => none

/-- Caller `i` finishes `Do` (lines 68-82): enabled once every entry it
waits on has completed (all `wg.Wait`s pass); the result is assembled by
the input-order loop `waitLoop`. -/
def stepFinish [DecidableEq K] (s : GState C K V) (i : Nat) :
    Option (GState C K V) :=
  match s.callers.get? i with
  | none => none
  | some c =>
    match c.pc with
    | .loaded ents =>
      match entOutcomes s.heap ents with
      | none => none
      | some l =>
        some { s with callers :=
          s.callers.set i { c with pc := .finished (waitLoop l []) } }
    | _ => none

/-- One atomic step of the machine. -/
def stepAct [DecidableEq K] (s : GState C K V) : Act → Option (GState C K V)
  | .reg i => stepRegister s i
  | .dispatch i => stepDispatch s i
  | .finish i => stepFinish s i

/-- The step relation: some caller performs its enabled atomic step. -/
def StepR [DecidableEq K] (s s' : GState C K V) : Prop :=
  ∃ a, stepAct s a = some s'

/-- Reachability under arbitrary interleaving. -/
def Reach [DecidableEq K] (s s' : GState C K V) : Prop :=
  Relation.ReflTransGen StepR s s'

/-- The initial state for a set of concurrent callers: empty heap, empty
registry (`g.m` is lazily initialised, lines 45-47), every caller about to
enter `Do`. -/
def initState (cs : List (C × List K × Loader C K V)) : GState C K V :=
  { heap := [], reg := [],
    callers := cs.map (fun t => ⟨t.1, t.2.1, t.2.2, .start⟩),
    calls := [] }

/-- Local invariant tying a heap and a registry together: every registry
binding points to an allocated pending entry carrying that key, every
pending entry is registered under its key, and the registry binds each key
at most once. -/
def RegInv (heap : List (EntCell K V)) (reg : GoMap K Nat) : Prop :=
  (∀ k eid, (k, eid) ∈ reg → heap.get? eid = some ⟨k, .pending⟩) ∧
  (∀ eid c, heap.get? eid = some c → c.status = .pending →
    (c.key, eid) ∈ reg) ∧
  (reg.map Prod.fst).Nodup

/-- The machine invariant: `RegInv` for the shared state, plus ownership —
every registered entry lies in the miss batch of exactly one caller that
has registered but not yet dispatched, and every such miss entry is still
pending and registered under its key. -/
structure Inv (s : GState C K V) : Prop where
  regInv : RegInv s.heap s.reg
  reg_owned : ∀ k eid, (k, eid) ∈ s.reg →
    ∃ i c ents miss, s.callers.get? i = some c ∧
      c.pc = .registered ents miss ∧ eid ∈ miss
  miss_disjoint : ∀ i j ci cj ei mi ej mj, i ≠ j →
    s.callers.get? i = some ci → s.callers.get? j = some cj →
    ci.pc = .registered ei mi → cj.pc = .registered ej mj →
    ∀ eid, eid ∈ mi → eid ∉ mj
  miss_reg : ∀ i c ents miss, s.callers.get? i = some c →
    c.pc = .registered ents miss →
    ∀ eid ∈ miss, ∃ k, s.heap.get? eid = some ⟨k, .pending⟩ ∧ (k, eid) ∈ s.reg

/-! ### A concrete two-caller interleaving used as evaluation witness:
caller 0 requests `[1,2]`, caller 1 requests `[2,3]`; caller 1 registers
while caller 0's batch is still in flight and joins its entry for key 2. -/

/-- Apply an action, keeping the state when the action is not enabled. -/
def demoStep (s : GState Unit Nat String) (a : Act) : GState Unit Nat String :=
  (stepAct s a).getD s

/-- The two overlapping demo callers. -/
def demoCs : List (Unit × List Nat × Loader Unit Nat String) :=
  [((), [1, 2], loadEcho), ((), [2, 3], loadEcho)]

/-- Demo trace, step 0: initial state. -/
def demo0 : GState Unit Nat String := initState demoCs

/-- Step 1: caller 0 registers misses 1,2. -/
def demo1 : GState Unit Nat String := demoStep demo0 (.reg 0)

/-- Step 2: caller 1 registers; key 2 hits caller 0's entry, 3 is a miss. -/
def demo2 : GState Unit Nat String := demoStep demo1 (.reg 1)

/-- Step 3: caller 0 dispatches its loader for keys `[1,2]`. -/
def demo3 : GState Unit Nat String := demoStep demo2 (.dispatch 0)

/-- Step 4: caller 1 dispatches its loader for key `[3]` only. -/
def demo4 : GState Unit Nat String := demoStep demo3 (.dispatch 1)

/-- Step 5: caller 0 assembles and returns. -/
def demo5 : GState Unit Nat String := demoStep demo4 (.finish 0)

/-- Step 6: caller 1 assembles and returns; the registry is empty. -/
def demo6 : GState Unit Nat String := demoStep demo5 (.finish 1)

/-! ## Basic lemmas about the Go-map model and the registration dedup. -/

theorem mapGet_mapPut_self [DecidableEq K] (m : GoMap K V) (k : K) (v : V) :
    mapGet (mapPut m k v) k = some v := by
  induction m with
  | nil => simp [mapPut, mapGet]
  | cons p rest ih =>
    obtain ⟨k', v'⟩ := p
    by_cases h : k' = k
    · simp [mapPut, h, mapGet]
    · simp [mapPut, h, mapGet, ih]

theorem mapGet_mapPut_ne [DecidableEq K] (m : GoMap K V) (k k' : K) (v : V)
    (h : k ≠ k') : mapGet (mapPut m k v) k' = mapGet m k' := by
  induction m with
  | nil => simp [mapPut, mapGet, h]
  | cons p rest ih =>
    obtain ⟨k'', v''⟩ := p
    by_cases hk : k'' = k
    · subst hk; simp [mapPut, mapGet, h]
    · simp [mapPut, hk, mapGet, ih]

theorem mem_mapPut [DecidableEq K] (m : GoMap K V) (k : K) (v : V) (p : K × V)
    (h : p ∈ mapPut m k v) : p ∈ m ∨ p = (k, v) := by
  induction m with
  | nil => simpa [mapPut] using h
  | cons q rest ih =>
    obtain ⟨k', v'⟩ := q
    by_cases hk : k' = k
    · simp only [mapPut, if_pos hk] at h
      rcases List.mem_cons.mp h with h | h
      · exact Or.inr h
      · exact Or.inl (List.mem_cons_of_mem _ h)
    · simp only [mapPut, if_neg hk] at h
      rcases List.mem_cons.mp h with h | h
      · exact Or.inl (h ▸ List.mem_cons_self _ _)
      · rcases ih h with h | h
        · exact Or.inl (List.mem_cons_of_mem _ h)
        · exact Or.inr h

theorem mem_fst_mapPut [DecidableEq K] (m : GoMap K V) (k : K) (v : V) (x : K)
    (h : x ∈ (mapPut m k v).map Prod.fst) : x ∈ m.map Prod.fst ∨ x = k := by
  rcases List.mem_map.mp h with ⟨p, hp, hx⟩
  rcases mem_mapPut m k v p hp with h' | h'
  · exact Or.inl (hx ▸ List.mem_map_of_mem Prod.fst h')
  · subst h'; exact Or.inr hx.symm

theorem nodup_fst_mapPut [DecidableEq K] (m : GoMap K V) (k : K) (v : V)
    (h : (m.map Prod.fst).Nodup) : ((mapPut m k v).map Prod.fst).Nodup := by
  induction m with
  | nil => simp [mapPut]
  | cons p rest ih =>
    obtain ⟨k', v'⟩ := p
    simp only [List.map_cons, List.nodup_cons] at h
    by_cases hk : k' = k
    · subst hk
      have hput : mapPut ((k', v') :: rest) k' v = (k', v) :: rest := by
        simp [mapPut]
      rw [hput]
      simpa [List.nodup_cons] using h
    · simp only [mapPut, if_neg hk, List.map_cons, List.nodup_cons]
      refine ⟨fun hmem => ?_, ih h.2⟩
      rcases mem_fst_mapPut rest k v k' hmem with h' | h'
      · exact h.1 h'
      · exact hk h'

theorem mem_dedupFirst [DecidableEq K] (seen keys : List K) (x : K) :
    x ∈ dedupFirst seen keys ↔ x ∈ keys ∧ x ∉ seen := by
  induction keys generalizing seen with
  | nil => simp [dedupFirst]
  | cons k ks ih =>
    by_cases hk : k ∈ seen
    · simp only [dedupFirst, if_pos hk]
      rw [ih]
      constructor
      · rintro ⟨h1, h2⟩; exact ⟨List.mem_cons_of_mem _ h1, h2⟩
      · rintro ⟨h1, h2⟩
        rcases List.mem_cons.mp h1 with rfl | h1
        · exact absurd hk h2
        · exact ⟨h1, h2⟩
    · simp only [dedupFirst, if_neg hk]
      constructor
      · intro hmem
        rcases List.mem_cons.mp hmem with rfl | hmem
        · exact ⟨List.mem_cons_self _ _, hk⟩
        · obtain ⟨h1, h2⟩ := (ih (k :: seen)).mp hmem
          exact ⟨List.mem_cons_of_mem _ h1,
            fun hx => h2 (List.mem_cons_of_mem _ hx)⟩
      · rintro ⟨h1, h2⟩
        rcases List.mem_cons.mp h1 with rfl | h1
        · exact List.mem_cons_self _ _
        · by_cases hxk : x = k
          · exact hxk ▸ List.mem_cons_self _ _
          · refine List.mem_cons_of_mem _ ((ih (k :: seen)).mpr ⟨h1, ?_⟩)
            intro hx
            rcases List.mem_cons.mp hx with h | h
            · exact hxk h
            · exact h2 h

theorem nodup_dedupFirst [DecidableEq K] (seen keys : List K) :
    (dedupFirst seen keys).Nodup := by
  induction keys generalizing seen with
  | nil => simp [dedupFirst]
  | cons k ks ih =>
    by_cases hk : k ∈ seen
    · simpa [dedupFirst, if_pos hk] using ih seen
    · simp only [dedupFirst, if_neg hk, List.nodup_cons]
      refine ⟨fun hmem => ?_, ih (k :: seen)⟩
      exact ((mem_dedupFirst _ _ _).mp hmem).2 (List.mem_cons_self _ _)

theorem dedupFirst_eq_nil_iff [DecidableEq K] (seen keys : List K) :
    dedupFirst seen keys = [] ↔ ∀ x ∈ keys, x ∈ seen := by
  induction keys generalizing seen with
  | nil => simp [dedupFirst]
  | cons k ks ih =>
    by_cases hk : k ∈ seen
    · simp [dedupFirst, if_pos hk, ih, hk]
    · simp [dedupFirst, if_neg hk, hk]

theorem missKeys_eq_nil_iff [DecidableEq K] (keys : List K) :
    missKeys keys = [] ↔ keys = [] := by
  simp only [missKeys, dedupFirst_eq_nil_iff]
  constructor
  · intro h
    cases keys with
    | nil => rfl
    | cons k ks => exact absurd (h k (List.mem_cons_self _ _)) (List.not_mem_nil k)
  · rintro rfl; simp

theorem mem_missKeys [DecidableEq K] (keys : List K) (x : K) :
    x ∈ missKeys keys ↔ x ∈ keys := by
  simp [missKeys, mem_dedupFirst]

theorem nodup_missKeys [DecidableEq K] (keys : List K) : (missKeys keys).Nodup :=
  nodup_dedupFirst [] keys

/-! ## Further map and list-cell lemmas, for the machine. -/

theorem mapGet_mem [DecidableEq K] (m : GoMap K V) (k : K) (v : V)
    (h : mapGet m k = some v) : (k, v) ∈ m := by
  induction m with
  | nil => cases h
  | cons p rest ih =>
    obtain ⟨k', v'⟩ := p
    by_cases hk : k' = k
    · subst hk
      rw [mapGet, if_pos rfl] at h
      cases h
      exact List.mem_cons_self _ _
    · rw [mapGet, if_neg hk] at h
      exact List.mem_cons_of_mem _ (ih h)

theorem mapGet_eq_none_iff [DecidableEq K] (m : GoMap K V) (k : K) :
    mapGet m k = none ↔ k ∉ m.map Prod.fst := by
  induction m with
  | nil => simp [mapGet]
  | cons p rest ih =>
    obtain ⟨k', v'⟩ := p
    by_cases hk : k' = k
    · subst hk
      simp [mapGet]
    · rw [mapGet, if_neg hk, ih, List.map_cons]
      constructor
      · intro h1 hh
        rcases List.mem_cons.mp hh with rfl | hh
        · exact hk rfl
        · exact h1 hh
      · intro h1 hh
        exact h1 (List.mem_cons_of_mem _ hh)

theorem mapPut_of_get_none [DecidableEq K] (m : GoMap K V) (k : K) (v : V)
    (h : mapGet m k = none) : mapPut m k v = m ++ [(k, v)] := by
  induction m with
  | nil => rfl
  | cons p rest ih =>
    obtain ⟨k', v'⟩ := p
    by_cases hk : k' = k
    · rw [mapGet, if_pos hk] at h
      cases h
    · rw [mapGet, if_neg hk] at h
      rw [mapPut, if_neg hk, ih h, List.cons_append]

theorem mem_mapDel [DecidableEq K] (m : GoMap K V) (k : K) (p : K × V) :
    p ∈ mapDel m k ↔ p ∈ m ∧ p.1 ≠ k := by
  induction m with
  | nil => simp [mapDel]
  | cons q rest ih =>
    obtain ⟨k', v'⟩ := q
    by_cases hk : k' = k
    · subst hk
      rw [mapDel, if_pos rfl, ih]
      constructor
      · rintro ⟨h1, h2⟩; exact ⟨List.mem_cons_of_mem _ h1, h2⟩
      · rintro ⟨h1, h2⟩
        rcases List.mem_cons.mp h1 with rfl | h1
        · exact absurd rfl h2
        · exact ⟨h1, h2⟩
    · rw [mapDel, if_neg hk]
      constructor
      · intro h
        rcases List.mem_cons.mp h with rfl | h
        · exact ⟨List.mem_cons_self _ _, hk⟩
        · obtain ⟨h1, h2⟩ := ih.mp h
          exact ⟨List.mem_cons_of_mem _ h1, h2⟩
      · rintro ⟨h1, h2⟩
        rcases List.mem_cons.mp h1 with rfl | h1
        · exact List.mem_cons_self _ _
        · exact List.mem_cons_of_mem _ (ih.mpr ⟨h1, h2⟩)

theorem fst_mapDel_sublist [DecidableEq K] (m : GoMap K V) (k : K) :
    ((mapDel m k).map Prod.fst).Sublist (m.map Prod.fst) := by
  induction m with
  | nil => simp [mapDel]
  | cons q rest ih =>
    obtain ⟨k', v'⟩ := q
    by_cases hk : k' = k
    · rw [mapDel, if_pos hk]
      exact List.sublist_cons_of_sublist k' ih
    · rw [mapDel, if_neg hk, List.map_cons, List.map_cons]
      exact ih.cons₂ k'

theorem nodup_fst_mapDel [DecidableEq K] (m : GoMap K V) (k : K)
    (h : (m.map Prod.fst).Nodup) : ((mapDel m k).map Prod.fst).Nodup :=
  h.sublist (fst_mapDel_sublist m k)

theorem nodup_fst_key_unique [DecidableEq K] (m : GoMap K V)
    (h : (m.map Prod.fst).Nodup) (k : K) (a b : V)
    (ha : (k, a) ∈ m) (hb : (k, b) ∈ m) : a = b := by
  induction m with
  | nil => cases ha
  | cons p rest ih =>
    obtain ⟨k', v'⟩ := p
    simp only [List.map_cons, List.nodup_cons] at h
    rcases List.mem_cons.mp ha with heq | ha' <;>
      rcases List.mem_cons.mp hb with heq' | hb'
    · rw [Prod.mk.injEq] at heq heq'
      exact heq.2.trans heq'.2.symm
    · exfalso
      rw [Prod.mk.injEq] at heq
      obtain ⟨rfl, rfl⟩ := heq
      exact h.1 (List.mem_map_of_mem Prod.fst hb')
    · exfalso
      rw [Prod.mk.injEq] at heq'
      obtain ⟨rfl, rfl⟩ := heq'
      exact h.1 (List.mem_map_of_mem Prod.fst ha')
    · exact ih h.2 ha' hb'

theorem get?_some_lt (l : List α) (i : Nat) (c : α) (h : l.get? i = some c) :
    i < l.length := by
  induction l generalizing i with
  | nil => cases h
  | cons x xs ih =>
    cases i with
    | zero => simp
    | succ n => exact Nat.succ_lt_succ (ih n h)

theorem get?_append_of_some (l l' : List α) (i : Nat) (c : α)
    (h : l.get? i = some c) : (l ++ l').get? i = some c := by
  induction l generalizing i with
  | nil => cases h
  | cons x xs ih =>
    cases i with
    | zero => exact h
    | succ n => exact ih n h

theorem get?_concat_self (l : List α) (x : α) :
    (l ++ [x]).get? l.length = some x := by
  induction l with
  | nil => rfl
  | cons y ys ih => exact ih

theorem get?_append_left_of_lt (l l' : List α) (i : Nat) (h : i < l.length) :
    (l ++ l').get? i = l.get? i := by
  induction l generalizing i with
  | nil => cases h
  | cons x xs ih =>
    cases i with
    | zero => rfl
    | succ n => exact ih n (Nat.lt_of_succ_lt_succ h)

theorem set_get?_same (l : List α) (i : Nat) (a : α) (h : i < l.length) :
    (l.set i a).get? i = some a := by
  induction l generalizing i with
  | nil => cases h
  | cons x xs ih =>
    cases i with
    | zero => rfl
    | succ n => exact ih n (Nat.lt_of_succ_lt_succ h)

theorem set_get?_other (l : List α) (i j : Nat) (a : α) (h : i ≠ j) :
    (l.set i a).get? j = l.get? j := by
  induction l generalizing i j with
  | nil => simp
  | cons x xs ih =>
    cases i with
    | zero =>
      cases j with
      | zero => exact absurd rfl h
      | succ m => rfl
    | succ n =>
      cases j with
      | zero => rfl
      | succ m => exact ih n m (fun hh => h (congrArg Nat.succ hh))

theorem modifyAt_get?_same (l : List α) (i : Nat) (f : α → α) :
    (modifyAt l i f).get? i = (l.get? i).map f := by
  induction l generalizing i with
  | nil => simp [modifyAt]
  | cons x xs ih =>
    cases i with
    | zero => rfl
    | succ n => exact ih n

theorem modifyAt_get?_other (l : List α) (i j : Nat) (f : α → α) (h : i ≠ j) :
    (modifyAt l i f).get? j = l.get? j := by
  induction l generalizing i j with
  | nil => simp [modifyAt]
  | cons x xs ih =>
    cases i with
    | zero =>
      cases j with
      | zero => exact absurd rfl h
      | succ m => rfl
    | succ n =>
      cases j with
      | zero => rfl
      | succ m => exact ih n m (fun hh => h (congrArg Nat.succ hh))

theorem completeEnts_get?_not_mem [DecidableEq K]
    (out : Except GoErr (GoMap K V)) (heap : List (EntCell K V))
    (miss : List Nat) (eid : Nat) (h : eid ∉ miss) :
    (completeEnts out heap miss).get? eid = heap.get? eid := by
  induction miss generalizing heap with
  | nil => rfl
  | cons e rest ih =>
    rw [completeEnts, ih _ (fun hh => h (List.mem_cons_of_mem _ hh)),
      modifyAt_get?_other _ _ _ _
        (fun hh => h (by rw [← hh]; exact List.mem_cons_self _ _))]

theorem completeEnts_get?_mem [DecidableEq K]
    (out : Except GoErr (GoMap K V)) (heap : List (EntCell K V))
    (miss : List Nat) (eid : Nat) (h : eid ∈ miss) :
    (completeEnts out heap miss).get? eid =
      (heap.get? eid).map (fun c => ⟨c.key, .done (entResult out c.key)⟩) := by
  induction miss generalizing heap with
  | nil => cases h
  | cons e rest ih =>
    by_cases hmem : eid ∈ rest
    · rw [completeEnts, ih _ hmem]
      by_cases he : e = eid
      · subst he
        rw [modifyAt_get?_same]
        cases heap.get? e <;> rfl
      · rw [modifyAt_get?_other _ _ _ _ he]
    · have he : e = eid := by
        rcases List.mem_cons.mp h with rfl | hh
        · rfl
        · exact absurd hh hmem
      subst he
      rw [completeEnts, completeEnts_get?_not_mem _ _ _ _ hmem,
        modifyAt_get?_same]

theorem mem_removeKeys [DecidableEq K] (reg : GoMap K Nat) (ks : List K)
    (p : K × Nat) : p ∈ removeKeys reg ks ↔ p ∈ reg ∧ p.1 ∉ ks := by
  induction ks generalizing reg with
  | nil => simp [removeKeys]
  | cons k rest ih =>
    rw [removeKeys, ih]
    constructor
    · rintro ⟨h1, h2⟩
      obtain ⟨h1, h3⟩ := (mem_mapDel reg k p).mp h1
      refine ⟨h1, ?_⟩
      intro hh
      rcases List.mem_cons.mp hh with hh | hh
      · exact h3 hh
      · exact h2 hh
    · rintro ⟨h1, h2⟩
      exact ⟨(mem_mapDel reg k p).mpr
          ⟨h1, fun hh => h2 (hh ▸ List.mem_cons_self _ _)⟩,
        fun hh => h2 (List.mem_cons_of_mem _ hh)⟩

theorem nodup_fst_removeKeys [DecidableEq K] (reg : GoMap K Nat) (ks : List K)
    (h : (reg.map Prod.fst).Nodup) :
    ((removeKeys reg ks).map Prod.fst).Nodup := by
  induction ks generalizing reg with
  | nil => exact h
  | cons k rest ih => exact ih _ (nodup_fst_mapDel reg k h)

theorem entKeys_mem_of_key [DecidableEq K] (heap : List (EntCell K V))
    (miss : List Nat) (ks : List K) (h : entKeys heap miss = some ks)
    (k : K) (hk : k ∈ ks) :
    ∃ eid ∈ miss, ∃ c, heap.get? eid = some c ∧ c.key = k := by
  induction miss generalizing ks with
  | nil =>
    rw [entKeys] at h
    cases h
    cases hk
  | cons e rest ih =>
    rw [entKeys] at h
    cases hc : heap.get? e with
    | none => rw [hc] at h; cases h
    | some c =>
      rw [hc] at h
      cases hrest : entKeys heap rest with
      | none => rw [hrest] at h; cases h
      | some ks' =>
        rw [hrest] at h
        cases h
        rcases List.mem_cons.mp hk with rfl | hk'
        · exact ⟨e, List.mem_cons_self _ _, c, hc, rfl⟩
        · obtain ⟨eid, hmem, c', hc', hkey⟩ := ih ks' hrest hk'
          exact ⟨eid, List.mem_cons_of_mem _ hmem, c', hc', hkey⟩

theorem entKeys_key_of_mem [DecidableEq K] (heap : List (EntCell K V))
    (miss : List Nat) (ks : List K) (h : entKeys heap miss = some ks)
    (eid : Nat) (hmem : eid ∈ miss) :
    ∃ c, heap.get? eid = some c ∧ c.key ∈ ks := by
  induction miss generalizing ks with
  | nil => cases hmem
  | cons e rest ih =>
    rw [entKeys] at h
    cases hc : heap.get? e with
    | none => rw [hc] at h; cases h
    | some c =>
      rw [hc] at h
      cases hrest : entKeys heap rest with
      | none => rw [hrest] at h; cases h
      | some ks' =>
        rw [hrest] at h
        cases h
        rcases List.mem_cons.mp hmem with rfl | hmem'
        · exact ⟨c, hc, List.mem_cons_self _ _⟩
        · obtain ⟨c', hc', hkey⟩ := ih ks' hrest hmem'
          exact ⟨c', hc', List.mem_cons_of_mem _ hkey⟩

/-! ## Lemmas about the result-assembly loop. -/

/-- When every entry completed with a value or the not-found sentinel, the
assembly loop succeeds, and the result map is characterised by lookup:
a key's binding comes from its (shared, hence unique per key) entry result
if the key occurs in the list, and from the accumulator otherwise. -/
theorem waitLoop_map_ok [DecidableEq K] (res : K → Except GoErr V)
    (hres : ∀ k, res k = .error .resultNotFound ∨ ∃ v, res k = .ok v)
    (keys : List K) (acc : GoMap K V) :
    ∃ m, waitLoop (keys.map (fun k => (k, res k))) acc = (some m, none) ∧
      (∀ k v, res k = .ok v →
        mapGet m k = if k ∈ keys then some v else mapGet acc k) ∧
      (∀ k e, res k = .error e → mapGet m k = mapGet acc k) := by
  induction keys generalizing acc with
  | nil =>
    exact ⟨acc, rfl, fun k v _ => by simp, fun k e _ => rfl⟩
  | cons key ks ih =>
    rcases hres key with h | ⟨v, h⟩
    · obtain ⟨m, hm, hok, herr⟩ := ih acc
      refine ⟨m, by simpa [waitLoop, h] using hm, ?_, ?_⟩
      · intro k w h'
        have hkne : k ≠ key := by rintro rfl; rw [h] at h'; cases h'
        rw [hok k w h']
        simp [List.mem_cons, hkne]
      · exact fun k e h' => herr k e h'
    · obtain ⟨m, hm, hok, herr⟩ := ih (mapPut acc key v)
      refine ⟨m, by simpa [waitLoop, h] using hm, ?_, ?_⟩
      · intro k w h'
        by_cases hkk : k = key
        · subst hkk
          have hv : v = w := by
            rw [h] at h'
            injection h'
          subst hv
          rw [hok k v h']
          by_cases hmem : k ∈ ks
          · simp [hmem, List.mem_cons]
          · rw [if_neg hmem, mapGet_mapPut_self]
            simp [List.mem_cons]
        · rw [hok k w h', mapGet_mapPut_ne acc key k v (fun hh => hkk hh.symm)]
          simp [List.mem_cons, hkk]
      · intro k e h'
        have hkne : k ≠ key := by rintro rfl; rw [h] at h'; cases h'
        rw [herr k e h', mapGet_mapPut_ne acc key k v (fun hh => hkne hh.symm)]

/-- Every binding of the assembled result map comes from an entry of the
list or from the accumulator. -/
theorem waitLoop_mem_fst [DecidableEq K] (ents : List (K × Except GoErr V))
    (acc : GoMap K V) (m : GoMap K V) (eo : Option GoErr)
    (h : waitLoop ents acc = (some m, eo)) :
    ∀ k v, (k, v) ∈ m → (∃ r, (k, r) ∈ ents) ∨ (k, v) ∈ acc := by
  induction ents generalizing acc with
  | nil =>
    simp only [waitLoop] at h
    cases h
    exact fun k v hkv => Or.inr hkv
  | cons p rest ih =>
    obtain ⟨k', r⟩ := p
    intro k v hkv
    match r, h with
    | .error e, h =>
      by_cases he : e = GoErr.resultNotFound
      · rw [waitLoop, if_pos he] at h
        rcases ih acc h k v hkv with ⟨r', hr'⟩ | hacc
        · exact Or.inl ⟨r', List.mem_cons_of_mem _ hr'⟩
        · exact Or.inr hacc
      · rw [waitLoop, if_neg he] at h
        cases h
    | .ok w, h =>
      rw [waitLoop] at h
      rcases ih (mapPut acc k' w) h k v hkv with ⟨r', hr'⟩ | hacc
      · exact Or.inl ⟨r', List.mem_cons_of_mem _ hr'⟩
      · rcases mem_mapPut acc k' w (k, v) hacc with hmem | heq
        · exact Or.inr hmem
        · have : k = k' := congrArg Prod.fst heq
          exact Or.inl ⟨.ok w, this ▸ List.mem_cons_self _ _⟩

/-- The assembled result map binds each key at most once. -/
theorem waitLoop_nodup_fst [DecidableEq K] (ents : List (K × Except GoErr V))
    (acc : GoMap K V) (m : GoMap K V) (eo : Option GoErr)
    (hacc : (acc.map Prod.fst).Nodup) (h : waitLoop ents acc = (some m, eo)) :
    (m.map Prod.fst).Nodup := by
  induction ents generalizing acc with
  | nil =>
    simp only [waitLoop] at h
    cases h
    exact hacc
  | cons p rest ih =>
    obtain ⟨k', r⟩ := p
    match r, h with
    | .error e, h =>
      by_cases he : e = GoErr.resultNotFound
      · rw [waitLoop, if_pos he] at h
        exact ih acc hacc h
      · rw [waitLoop, if_neg he] at h
        cases h
    | .ok w, h =>
      rw [waitLoop] at h
      exact ih (mapPut acc k' w) (nodup_fst_mapPut acc k' w hacc) h

/-- Characterisation of one sequential `Do` call whose loader succeeds:
no error is returned, and the result binds exactly the requested keys that
the loader's map binds, to the loader's values. -/
theorem Do_ok [DecidableEq K] (ctx : C) (keys : List K) (load : Loader C K V)
    (vals : GoMap K V) (h : load ctx (missKeys keys) = .ok vals) :
    ∃ m, Do ctx keys load = (some m, none) ∧
      ∀ k, mapGet m k = if k ∈ keys then mapGet vals k else none := by
  have hres : ∀ k, entResult (Except.ok vals) k = .error .resultNotFound ∨
      ∃ v, entResult (Except.ok vals) k = .ok v := by
    intro k
    cases hv : mapGet vals k with
    | none => exact Or.inl (by simp [entResult, hv])
    | some v => exact Or.inr ⟨v, by simp [entResult, hv]⟩
  obtain ⟨m, hm, hok, herr⟩ := waitLoop_map_ok (entResult (Except.ok vals)) hres keys []
  refine ⟨m, by simpa [Do, entsOf, h] using hm, fun k => ?_⟩
  cases hv : mapGet vals k with
  | none =>
    have h' : entResult (Except.ok vals) k = .error .resultNotFound := by
      simp [entResult, hv]
    rw [herr k _ h']
    simp [mapGet]
  | some v =>
    have h' : entResult (Except.ok vals) k = .ok v := by simp [entResult, hv]
    rw [hok k v h']
    simp [mapGet]

/-! ## Claims about the sequential behaviour of `Do`. -/

/-- C1 (amended): for every call `Do(ctx, keys, loader)` in which the loader
is invoked (`keys ≠ []`) and returns a failure `e` that does not match the
internal `errResultNotFound` sentinel, that failure is applied to every
entry of the batch and `Do` returns a nil mapping together with exactly that
error `e`. -/
theorem do_loader_failure_propagates [DecidableEq K] (ctx : C) (keys : List K)
    (load : Loader C K V) (e : GoErr) (hkeys : keys ≠ [])
    (h : load ctx (missKeys keys) = .error e) (hne : e ≠ .resultNotFound) :
    Do ctx keys load = (none, some e) := by
  cases keys with
  | nil => exact absurd rfl hkeys
  | cons k ks => simp [Do, entsOf, h, waitLoop, entResult, hne]

/-- Witness for C1's amended theorem, on the spec's own scenario: keys
`[1,2]`, loader failing with "backend unavailable" yields a nil map and
exactly that error. -/
theorem do_loader_failure_propagates_witness :
    Do () [1, 2] loadBackendUnavailable =
      (none, some (GoErr.err "backend unavailable")) :=
  do_loader_failure_propagates () [1, 2] loadBackendUnavailable
    (GoErr.err "backend unavailable") (by decide) rfl (by decide)

/-- C1 counterexample: the claim quantifies over "every loader error value
whatsoever", but a loader failure matching the `errResultNotFound` sentinel
(possible in Go via `errors.Is`) is swallowed by the skip branch of `Do`'s
assembly loop (lines 73-75): `Do` then returns an empty map and a nil
error instead of the loader's failure. -/
theorem do_loader_notFound_failure_swallowed :
    Do () [1, 2] loadNF = (some [], none) ∧
      Do () [1, 2] loadNF ≠ (none, some GoErr.resultNotFound) := by
  constructor
  · rfl
  · decide

/-- C2: if the loader succeeds and its returned mapping binds a requested
key `k` to `v`, then `Do` (which then cannot fail) returns a mapping that
binds `k` to `v`, with a nil error. -/
theorem do_returns_loaded_value [DecidableEq K] (ctx : C) (keys : List K)
    (load : Loader C K V) (vals : GoMap K V) (k : K) (v : V)
    (h : load ctx (missKeys keys) = .ok vals) (hk : k ∈ keys)
    (hv : mapGet vals k = some v) :
    ∃ m, Do ctx keys load = (some m, none) ∧ mapGet m k = some v := by
  obtain ⟨m, hm, hl⟩ := Do_ok ctx keys load vals h
  exact ⟨m, hm, by rw [hl k, if_pos hk, hv]⟩

/-- Witness for C2, on the spec's scenario: keys `[1,2,3]`, loader map
`{1:"a", 3:"c"}` — `Do` returns exactly `{1:"a", 3:"c"}` and a nil error. -/
theorem do_returns_loaded_value_witness :
    (∃ m, Do () [1, 2, 3] loadAC = (some m, none) ∧ mapGet m 1 = some "a") ∧
      Do () [1, 2, 3] loadAC = (some [(1, "a"), (3, "c")], none) :=
  ⟨do_returns_loaded_value () [1, 2, 3] loadAC [(1, "a"), (3, "c")] 1 "a"
    rfl (by decide) rfl, rfl⟩

/-- C3: duplicate key occurrences inside one `Do` call resolve to the entry
of the first occurrence: the loader is invoked exactly once, with the
deduplicated key list (same key set as the input, no duplicates), and any
returned result mapping binds each key at most once. -/
theorem do_duplicate_keys_coalesce [DecidableEq K] (keys : List K)
    (hne : keys ≠ []) :
    loaderCalls keys = [missKeys keys] ∧ (missKeys keys).Nodup ∧
      (∀ x, x ∈ missKeys keys ↔ x ∈ keys) ∧
      ∀ (ctx : C) (load : Loader C K V) (m : GoMap K V) (eo : Option GoErr),
        Do ctx keys load = (some m, eo) → (m.map Prod.fst).Nodup := by
  refine ⟨?_, nodup_missKeys keys, mem_missKeys keys, ?_⟩
  · rw [loaderCalls, if_neg (fun hh => hne ((missKeys_eq_nil_iff keys).mp hh))]
  · intro ctx load m eo hdo
    unfold Do at hdo
    exact waitLoop_nodup_fst _ _ _ _ (by simp) hdo

/-- Witness for C3, on the spec's scenario: `Do` with keys `[5,5,5]`
performs exactly one loader invocation with key set `{5}` and the result
has a single entry for key 5. -/
theorem do_duplicate_keys_coalesce_witness :
    loaderCalls ([5, 5, 5] : List Nat) = [[5]] ∧
      Do () [5, 5, 5] loadEcho = (some [(5, "v")], none) ∧
      (([(5, "v")] : GoMap Nat String).map Prod.fst).Nodup := by
  have h := do_duplicate_keys_coalesce (C := Unit) (V := String) [5, 5, 5]
    (by decide)
  exact ⟨h.1.trans (by decide), rfl,
    h.2.2.2 () loadEcho [(5, "v")] none rfl⟩

/-- C4: when the loader succeeds but omits a requested key from its
returned mapping, that key is absent from `Do`'s result and `Do` reports no
error for it: the internal not-found sentinel never reaches the caller. -/
theorem do_omits_missing_key [DecidableEq K] (ctx : C) (keys : List K)
    (load : Loader C K V) (vals : GoMap K V) (k : K)
    (h : load ctx (missKeys keys) = .ok vals) (hv : mapGet vals k = none) :
    ∃ m, Do ctx keys load = (some m, none) ∧ mapGet m k = none := by
  obtain ⟨m, hm, hl⟩ := Do_ok ctx keys load vals h
  refine ⟨m, hm, ?_⟩
  rw [hl k]
  by_cases hk : k ∈ keys <;> simp [hk, hv]

/-- Witness for C4: keys `[1,2]`, loader map `{1:"a"}` — `Do` succeeds,
key 2 is silently absent from the result. -/
theorem do_omits_missing_key_witness :
    (∃ m, Do () [1, 2] loadA1 = (some m, none) ∧ mapGet m 2 = none) ∧
      Do () [1, 2] loadA1 = (some [(1, "a")], none) :=
  ⟨do_omits_missing_key () [1, 2] loadA1 [(1, "a")] 2 rfl rfl, rfl⟩

/-- C6: the result-assembly loop of `Do` (lines 69-78), iterating the
resolved entries in input order, stops at the first entry completed with a
failure other than the not-found sentinel and returns exactly that failure
with a nil result mapping, whatever entries (from this or other batches)
follow it. -/
theorem waitLoop_stops_at_first_failure [DecidableEq K]
    (pre : List (K × Except GoErr V)) (k : K) (e : GoErr)
    (post : List (K × Except GoErr V)) (acc : GoMap K V)
    (hpre : ∀ p ∈ pre, p.2 = .error .resultNotFound ∨ ∃ v, p.2 = .ok v)
    (he : e ≠ .resultNotFound) :
    waitLoop (pre ++ (k, .error e) :: post) acc = (none, some e) := by
  induction pre generalizing acc with
  | nil => simp [waitLoop, he]
  | cons p rest ih =>
    obtain ⟨k', r⟩ := p
    rcases hpre (k', r) (List.mem_cons_self _ _) with hr | ⟨v, hr⟩ <;>
      simp only at hr <;> subst hr
    · rw [List.cons_append, waitLoop, if_pos rfl]
      exact ih acc (fun p hp => hpre p (List.mem_cons_of_mem _ hp))
    · rw [List.cons_append, waitLoop]
      exact ih (mapPut acc k' v) (fun p hp => hpre p (List.mem_cons_of_mem _ hp))

/-- Witness for C6: entries `[1 ↦ ok "a", 2 ↦ not-found, 3 ↦ "boom",
4 ↦ ok "d"]` in input order make the loop return `(nil, "boom")`. -/
theorem waitLoop_stops_at_first_failure_witness :
    waitLoop [((1 : Nat), Except.ok "a"),
        (2, Except.error GoErr.resultNotFound),
        (3, Except.error (GoErr.err "boom")), (4, Except.ok "d")] [] =
      (none, some (GoErr.err "boom")) :=
  waitLoop_stops_at_first_failure
    [((1 : Nat), Except.ok "a"), (2, Except.error GoErr.resultNotFound)]
    3 (GoErr.err "boom") [(4, Except.ok "d")] []
    (by
      intro p hp
      rcases List.mem_cons.mp hp with rfl | hp
      · exact Or.inr ⟨"a", rfl⟩
      · rcases List.mem_cons.mp hp with rfl | hp
        · exact Or.inl rfl
        · cases hp)
    (by decide)

/-- C7: `Do` with an empty key list returns an empty mapping and a nil
error, and the loader is never invoked. -/
theorem do_empty_keys [DecidableEq K] (ctx : C) (load : Loader C K V) :
    Do ctx ([] : List K) load = (some [], none) ∧
      loaderCalls ([] : List K) = [] := by
  constructor
  · rfl
  · simp [loaderCalls, missKeys, dedupFirst]

/-- C8: per `Do` call the loader is invoked exactly once when the miss-key
set is non-empty (from the empty registry: iff `keys ≠ []`) and zero times
when it is empty, and every invocation receives exactly the non-empty
miss-key list. -/
theorem do_loader_invocations [DecidableEq K] (keys : List K) :
    (loaderCalls keys).length = (if keys = [] then 0 else 1) ∧
      ∀ ks ∈ loaderCalls keys, ks = missKeys keys ∧ ks ≠ [] := by
  by_cases h : keys = []
  · subst h
    simp [loaderCalls, missKeys, dedupFirst]
  · have hmk : missKeys keys ≠ [] :=
      fun hh => h ((missKeys_eq_nil_iff keys).mp hh)
    rw [loaderCalls, if_neg hmk]
    refine ⟨by simp [h], ?_⟩
    intro ks hks
    obtain rfl := List.mem_singleton.mp hks
    exact ⟨rfl, hmk⟩

/-- Witness for C8: with keys `[7,7]` the loader is invoked exactly once,
with the non-empty deduplicated key list `[7]`. -/
theorem do_loader_invocations_witness :
    (loaderCalls ([7, 7] : List Nat)).length = 1 ∧
      ([7] : List Nat) = missKeys [7, 7] ∧ ([7] : List Nat) ≠ [] := by
  have h := do_loader_invocations ([7, 7] : List Nat)
  exact ⟨by simpa using h.1, h.2 [7] (by decide)⟩

/-- C10: every key bound in `Do`'s returned mapping is one of the requested
input keys; loader-returned bindings for keys outside the batch are never
consulted by the fan-out (lines 102-110) and never appear in the result. -/
theorem do_result_keys_subset [DecidableEq K] (ctx : C) (keys : List K)
    (load : Loader C K V) (m : GoMap K V) (eo : Option GoErr)
    (h : Do ctx keys load = (some m, eo)) :
    ∀ k v, (k, v) ∈ m → k ∈ keys := by
  intro k v hkv
  unfold Do at h
  rcases waitLoop_mem_fst _ _ _ _ h k v hkv with ⟨r, hr⟩ | habs
  · rcases List.mem_map.mp hr with ⟨k', hk', heq⟩
    have hk : k' = k := congrArg Prod.fst heq
    exact hk ▸ hk'
  · cases habs

/-- Witness for C10: requesting `[1]` from a loader that also returns a
binding for key 99 yields a result containing only key 1. -/
theorem do_result_keys_subset_witness :
    Do () [1] loadExtra = (some [(1, "a")], none) ∧ (1 : Nat) ∈ ([1] : List Nat) :=
  ⟨rfl, do_result_keys_subset () [1] loadExtra [(1, "a")] none (by decide) 1 "a"
    (by decide)⟩

/-! ## Invariant preservation for the machine. -/

/-- Workhorse specification of the registration loop: from a well-formed
heap/registry it preserves well-formedness, only appends to the heap,
allocates all miss entries at fresh indices, keeps every old registry
binding, adds bindings only for miss entries, and leaves every miss entry
pending and registered under its key. -/
theorem registerKeys_spec [DecidableEq K] (keys : List K)
    (heap : List (EntCell K V)) (reg : GoMap K Nat)
    (heap' : List (EntCell K V)) (reg' : GoMap K Nat) (ents miss : List Nat)
    (h : registerKeys heap reg keys = (heap', reg', ents, miss))
    (hInv : RegInv heap reg) :
    RegInv heap' reg' ∧
    (∃ ext, heap' = heap ++ ext) ∧
    (∀ eid ∈ miss, heap.length ≤ eid) ∧
    (∀ k eid, (k, eid) ∈ reg → (k, eid) ∈ reg') ∧
    (∀ k eid, (k, eid) ∈ reg' → (k, eid) ∈ reg ∨ eid ∈ miss) ∧
    (∀ eid ∈ miss, ∃ k, heap'.get? eid = some ⟨k, .pending⟩ ∧ (k, eid) ∈ reg') := by
  induction keys generalizing heap reg heap' reg' ents miss with
  | nil =>
    simp only [registerKeys, Prod.mk.injEq] at h
    obtain ⟨rfl, rfl, rfl, rfl⟩ := h
    refine ⟨hInv, ⟨[], (List.append_nil heap).symm⟩, ?_, fun _ _ hh => hh,
      fun k eid hh => Or.inl hh, ?_⟩
    · intro eid hh; cases hh
    · intro eid hh; cases hh
  | cons k ks ih =>
    simp only [registerKeys] at h
    cases hget : mapGet reg k with
    | some eid0 =>
      rw [hget] at h
      rcases hrec : registerKeys heap reg ks with ⟨h1, r1, e1, m1⟩
      rw [hrec] at h
      simp only [Prod.mk.injEq] at h
      obtain ⟨rfl, rfl, rfl, rfl⟩ := h
      exact ih heap reg h1 r1 e1 m1 hrec hInv
    | none =>
      rw [hget] at h
      have hput : mapPut reg k heap.length = reg ++ [(k, heap.length)] :=
        mapPut_of_get_none reg k heap.length hget
      rcases hrec : registerKeys (heap ++ [⟨k, .pending⟩])
          (mapPut reg k heap.length) ks with ⟨h1, r1, e1, m1⟩
      rw [hrec] at h
      simp only [Prod.mk.injEq] at h
      obtain ⟨rfl, rfl, rfl, rfl⟩ := h
      have hknotin : k ∉ reg.map Prod.fst := (mapGet_eq_none_iff reg k).mp hget
      have hInv1 : RegInv (heap ++ [⟨k, .pending⟩]) (mapPut reg k heap.length) := by
        rw [hput]
        refine ⟨?_, ?_, ?_⟩
        · intro k' e' hmem
          rcases List.mem_append.mp hmem with hmem | hmem
          · exact get?_append_of_some _ _ _ _ (hInv.1 k' e' hmem)
          · have heq := List.mem_singleton.mp hmem
            rw [Prod.mk.injEq] at heq
            obtain ⟨rfl, rfl⟩ := heq
            exact get?_concat_self heap _
        · intro e' c hc hpending
          have hlt := get?_some_lt _ _ _ hc
          rw [List.length_append, List.length_singleton] at hlt
          by_cases he : e' < heap.length
          · rw [get?_append_left_of_lt _ _ _ he] at hc
            exact List.mem_append_left _ (hInv.2.1 e' c hc hpending)
          · have he' : e' = heap.length :=
              Nat.le_antisymm (Nat.lt_succ_iff.mp hlt) (Nat.le_of_not_lt he)
            subst he'
            rw [get?_concat_self] at hc
            cases hc
            exact List.mem_append_right _ (List.mem_singleton.mpr rfl)
        · rw [List.map_append]
          simp only [List.map_singleton]
          exact List.Nodup.append hInv.2.2 (List.nodup_singleton _)
            (fun x hx hy => hknotin ((List.mem_singleton.mp hy) ▸ hx))
      obtain ⟨ihInv, ⟨ext, hext⟩, ihFresh, ihMono, ihNew, ihMiss⟩ :=
        ih _ _ h1 r1 e1 m1 hrec hInv1
      refine ⟨ihInv, ?_, ?_, ?_, ?_, ?_⟩
      · refine ⟨⟨k, .pending⟩ :: ext, ?_⟩
        rw [hext, List.append_assoc]
        rfl
      · intro eid hmem
        rcases List.mem_cons.mp hmem with rfl | hmem
        · exact Nat.le_refl _
        · have hge := ihFresh eid hmem
          rw [List.length_append, List.length_singleton] at hge
          exact Nat.le_of_succ_le hge
      · intro k' e' hmem
        exact ihMono k' e' (by rw [hput]; exact List.mem_append_left _ hmem)
      · intro k' e' hmem
        rcases ihNew k' e' hmem with hold | hmiss
        · rw [hput] at hold
          rcases List.mem_append.mp hold with hold | hold
          · exact Or.inl hold
          · have heq := List.mem_singleton.mp hold
            rw [Prod.mk.injEq] at heq
            obtain ⟨rfl, rfl⟩ := heq
            exact Or.inr (List.mem_cons_self _ _)
        · exact Or.inr (List.mem_cons_of_mem _ hmiss)
      · intro eid hmem
        rcases List.mem_cons.mp hmem with rfl | hmem
        · refine ⟨k, ?_, ?_⟩
          · rw [hext]
            exact get?_append_of_some _ _ _ _ (get?_concat_self heap _)
          · exact ihMono k heap.length
              (by rw [hput]
                  exact List.mem_append_right _ (List.mem_singleton.mpr rfl))
        · exact ihMiss eid hmem

/-- The registration critical section preserves the machine invariant. -/
theorem stepRegister_inv [DecidableEq K] (s s' : GState C K V) (i : Nat)
    (hInv : Inv s) (h : stepRegister s i = some s') : Inv s' := by
  unfold stepRegister at h
  cases hc : s.callers.get? i with
  | none => simp only [hc] at h; cases h
  | some c =>
    simp only [hc] at h
    cases hpc : c.pc with
    | start =>
      simp only [hpc] at h
      rcases hreg : registerKeys s.heap s.reg c.keys with ⟨heap', reg', ents, miss⟩
      simp only [hreg] at h
      obtain rfl := Option.some.inj h
      obtain ⟨hRI, ⟨ext, hext⟩, hFresh, hMono, hNew, hMiss⟩ :=
        registerKeys_spec c.keys s.heap s.reg heap' reg' ents miss hreg hInv.regInv
      have hilt : i < s.callers.length := get?_some_lt _ _ _ hc
      refine ⟨hRI, ?_, ?_, ?_⟩
      · -- reg_owned
        intro k eid hmem
        rcases hNew k eid hmem with hold | hmiss
        · obtain ⟨j, cj, ej, mj, hj, hjpc, hjm⟩ := hInv.reg_owned k eid hold
          have hji : j ≠ i := by
            rintro rfl
            rw [hc] at hj
            obtain rfl := Option.some.inj hj
            rw [hpc] at hjpc
            cases hjpc
          refine ⟨j, cj, ej, mj, ?_, hjpc, hjm⟩
          rw [set_get?_other _ _ _ _ (fun hh => hji hh.symm)]
          exact hj
        · have hne : miss ≠ [] := List.ne_nil_of_mem hmiss
          refine ⟨i, _, ents, miss, set_get?_same _ _ _ hilt, ?_, hmiss⟩
          show (if miss = [] then CallerPC.loaded ents
            else CallerPC.registered ents miss) = _
          rw [if_neg hne]
      · -- miss_disjoint
        intro i' j' ci cj ei mi ej mj hne' hgi hgj hpci hpcj eid hmi
        by_cases hii : i' = i
        · rw [hii, set_get?_same _ _ _ hilt] at hgi
          obtain rfl := Option.some.inj hgi
          by_cases hm0 : miss = []
          · rw [if_pos hm0] at hpci
            cases hpci
          · rw [if_neg hm0] at hpci
            obtain ⟨rfl, rfl⟩ : ents = ei ∧ miss = mi := by
              cases hpci; exact ⟨rfl, rfl⟩
            have hjj : j' ≠ i := fun hh => hne' (hii.trans hh.symm)
            rw [set_get?_other _ _ _ _ (fun hh => hjj hh.symm)] at hgj
            intro hmj
            obtain ⟨k, hk, _⟩ :=
              hInv.miss_reg j' cj ej mj hgj hpcj eid hmj
            exact absurd (get?_some_lt _ _ _ hk)
              (Nat.not_lt.mpr (hFresh eid hmi))
        · rw [set_get?_other _ _ _ _ (fun hh => hii hh.symm)] at hgi
          by_cases hjj : j' = i
          · rw [hjj, set_get?_same _ _ _ hilt] at hgj
            obtain rfl := Option.some.inj hgj
            by_cases hm0 : miss = []
            · rw [if_pos hm0] at hpcj
              cases hpcj
            · rw [if_neg hm0] at hpcj
              obtain ⟨rfl, rfl⟩ : ents = ej ∧ miss = mj := by
                cases hpcj; exact ⟨rfl, rfl⟩
              intro hmj
              obtain ⟨k, hk, _⟩ :=
                hInv.miss_reg i' ci ei mi hgi hpci eid hmi
              exact absurd (get?_some_lt _ _ _ hk)
                (Nat.not_lt.mpr (hFresh eid hmj))
          · rw [set_get?_other _ _ _ _ (fun hh => hjj hh.symm)] at hgj
            exact hInv.miss_disjoint i' j' ci cj ei mi ej mj hne' hgi hgj
              hpci hpcj eid hmi
      · -- miss_reg
        intro j cj ej mj hgj hpcj eid hmem
        by_cases hjj : j = i
        · rw [hjj, set_get?_same _ _ _ hilt] at hgj
          obtain rfl := Option.some.inj hgj
          by_cases hm0 : miss = []
          · rw [if_pos hm0] at hpcj
            cases hpcj
          · rw [if_neg hm0] at hpcj
            obtain ⟨rfl, rfl⟩ : ents = ej ∧ miss = mj := by
              cases hpcj; exact ⟨rfl, rfl⟩
            exact hMiss eid hmem
        · rw [set_get?_other _ _ _ _ (fun hh => hjj hh.symm)] at hgj
          obtain ⟨k, hk, hr⟩ := hInv.miss_reg j cj ej mj hgj hpcj eid hmem
          refine ⟨k, ?_, hMono k eid hr⟩
          show heap'.get? eid = _
          rw [hext]
          exact get?_append_of_some _ _ _ _ hk
    | registered e m => simp only [hpc] at h; cases h
    | loaded e => simp only [hpc] at h; cases h
    | finished r => simp only [hpc] at h; cases h

/-- The `doLoad` fan-out critical section preserves the machine
invariant: it completes exactly its own (pending) miss entries and removes
exactly their keys from the registry. -/
theorem stepDispatch_inv [DecidableEq K] (s s' : GState C K V) (i : Nat)
    (hInv : Inv s) (h : stepDispatch s i = some s') : Inv s' := by
  unfold stepDispatch at h
  cases hc : s.callers.get? i with
  | none => simp only [hc] at h; cases h
  | some c =>
    simp only [hc] at h
    cases hpc : c.pc with
    | start => simp only [hpc] at h; cases h
    | loaded e => simp only [hpc] at h; cases h
    | finished r => simp only [hpc] at h; cases h
    | registered ents miss =>
      simp only [hpc] at h
      cases hks : entKeys s.heap miss with
      | none => simp only [hks] at h; cases h
      | some ks =>
        simp only [hks] at h
        obtain rfl := Option.some.inj h
        have hilt : i < s.callers.length := get?_some_lt _ _ _ hc
        -- a registered key's entry is in this miss batch iff its key is in
        -- this batch's key list
        have hA1 : ∀ eid k', (k', eid) ∈ s.reg → eid ∈ miss → k' ∈ ks := by
          intro eid k' hin hmiss
          obtain ⟨c', hc', hkey⟩ := entKeys_key_of_mem s.heap miss ks hks eid hmiss
          have hsound := hInv.regInv.1 k' eid hin
          rw [hsound] at hc'
          obtain rfl := Option.some.inj hc'
          exact hkey
        have hA2 : ∀ eid k', (k', eid) ∈ s.reg → k' ∈ ks → eid ∈ miss := by
          intro eid k' hin hk
          obtain ⟨eid', hmem', c', hc', hkeq⟩ :=
            entKeys_mem_of_key s.heap miss ks hks k' hk
          obtain ⟨k₂, hk₂, hr₂⟩ :=
            hInv.miss_reg i c ents miss hc hpc eid' hmem'
          rw [hk₂] at hc'
          obtain rfl := Option.some.inj hc'
          have hkk : k₂ = k' := hkeq
          subst hkk
          have heid : eid = eid' :=
            nodup_fst_key_unique s.reg hInv.regInv.2.2 k₂ eid eid' hin hr₂
          exact heid ▸ hmem'
        refine ⟨⟨?_, ?_, ?_⟩, ?_, ?_, ?_⟩
        · -- reg sound
          intro k eid hmem
          obtain ⟨hin, hnot⟩ := (mem_removeKeys s.reg ks (k, eid)).mp hmem
          have hmiss : eid ∉ miss := fun hmiss => hnot (hA1 eid k hin hmiss)
          show (completeEnts _ s.heap miss).get? eid = _
          rw [completeEnts_get?_not_mem _ _ _ _ hmiss]
          exact hInv.regInv.1 k eid hin
        · -- pending in reg
          intro eid cc hcc hp
          by_cases hmiss : eid ∈ miss
          · rw [show (GState.heap _) = completeEnts (c.load c.ctx ks) s.heap miss
                from rfl] at hcc
            rw [completeEnts_get?_mem _ _ _ _ hmiss] at hcc
            cases hold : s.heap.get? eid with
            | none => rw [hold] at hcc; cases hcc
            | some c0 =>
              rw [hold] at hcc
              obtain rfl := Option.some.inj hcc
              cases hp
          · rw [show (GState.heap _) = completeEnts (c.load c.ctx ks) s.heap miss
                from rfl] at hcc
            rw [completeEnts_get?_not_mem _ _ _ _ hmiss] at hcc
            have hold := hInv.regInv.2.1 eid cc hcc hp
            exact (mem_removeKeys s.reg ks (cc.key, eid)).mpr
              ⟨hold, fun hks' => hmiss (hA2 eid cc.key hold hks')⟩
        · exact nodup_fst_removeKeys s.reg ks hInv.regInv.2.2
        · -- reg_owned
          intro k eid hmem
          obtain ⟨hin, hnot⟩ := (mem_removeKeys s.reg ks (k, eid)).mp hmem
          obtain ⟨j, cj, ej, mj, hj, hjpc, hjm⟩ := hInv.reg_owned k eid hin
          have hji : j ≠ i := by
            rintro rfl
            rw [hc] at hj
            obtain rfl := Option.some.inj hj
            have heq := hpc.symm.trans hjpc
            cases heq
            exact hnot (hA1 eid k hin hjm)
          refine ⟨j, cj, ej, mj, ?_, hjpc, hjm⟩
          rw [set_get?_other _ _ _ _ (fun hh => hji hh.symm)]
          exact hj
        · -- miss_disjoint
          intro i' j' ci cj ei mi ej mj hne' hgi hgj hpci hpcj eid hmi
          have hii : i' ≠ i := by
            rintro rfl
            rw [set_get?_same _ _ _ hilt] at hgi
            obtain rfl := Option.some.inj hgi
            cases hpci
          have hjj : j' ≠ i := by
            rintro rfl
            rw [set_get?_same _ _ _ hilt] at hgj
            obtain rfl := Option.some.inj hgj
            cases hpcj
          rw [set_get?_other _ _ _ _ (fun hh => hii hh.symm)] at hgi
          rw [set_get?_other _ _ _ _ (fun hh => hjj hh.symm)] at hgj
          exact hInv.miss_disjoint i' j' ci cj ei mi ej mj hne' hgi hgj
            hpci hpcj eid hmi
        · -- miss_reg
          intro j cj ej mj hgj hpcj eid hmem
          have hjj : j ≠ i := by
            rintro rfl
            rw [set_get?_same _ _ _ hilt] at hgj
            obtain rfl := Option.some.inj hgj
            cases hpcj
          rw [set_get?_other _ _ _ _ (fun hh => hjj hh.symm)] at hgj
          obtain ⟨k, hk, hr⟩ := hInv.miss_reg j cj ej mj hgj hpcj eid hmem
          have hmiss : eid ∉ miss := fun hmiss =>
            hInv.miss_disjoint i j c cj ents miss ej mj
              (fun hh => hjj hh.symm) hc hgj hpc hpcj eid hmiss hmem
          refine ⟨k, ?_, ?_⟩
          · show (completeEnts _ s.heap miss).get? eid = _
            rw [completeEnts_get?_not_mem _ _ _ _ hmiss]
            exact hk
          · exact (mem_removeKeys s.reg ks (k, eid)).mpr
              ⟨hr, fun hks' => hmiss (hA2 eid k hr hks')⟩

/-- The finishing step preserves the machine invariant: it only changes
one caller's control state from waiting to returned. -/
theorem stepFinish_inv [DecidableEq K] (s s' : GState C K V) (i : Nat)
    (hInv : Inv s) (h : stepFinish s i = some s') : Inv s' := by
  unfold stepFinish at h
  cases hc : s.callers.get? i with
  | none => simp only [hc] at h; cases h
  | some c =>
    simp only [hc] at h
    cases hpc : c.pc with
    | start => simp only [hpc] at h; cases h
    | registered e m => simp only [hpc] at h; cases h
    | finished r => simp only [hpc] at h; cases h
    | loaded ents =>
      simp only [hpc] at h
      cases ho : entOutcomes s.heap ents with
      | none => simp only [ho] at h; cases h
      | some l =>
        simp only [ho] at h
        obtain rfl := Option.some.inj h
        have hilt : i < s.callers.length := get?_some_lt _ _ _ hc
        refine ⟨hInv.regInv, ?_, ?_, ?_⟩
        · intro k eid hmem
          obtain ⟨j, cj, ej, mj, hj, hjpc, hjm⟩ := hInv.reg_owned k eid hmem
          have hji : j ≠ i := by
            rintro rfl
            rw [hc] at hj
            obtain rfl := Option.some.inj hj
            rw [hpc] at hjpc
            cases hjpc
          refine ⟨j, cj, ej, mj, ?_, hjpc, hjm⟩
          rw [set_get?_other _ _ _ _ (fun hh => hji hh.symm)]
          exact hj
        · intro i' j' ci cj ei mi ej mj hne' hgi hgj hpci hpcj eid hmi
          have hii : i' ≠ i := by
            rintro rfl
            rw [set_get?_same _ _ _ hilt] at hgi
            obtain rfl := Option.some.inj hgi
            cases hpci
          have hjj : j' ≠ i := by
            rintro rfl
            rw [set_get?_same _ _ _ hilt] at hgj
            obtain rfl := Option.some.inj hgj
            cases hpcj
          rw [set_get?_other _ _ _ _ (fun hh => hii hh.symm)] at hgi
          rw [set_get?_other _ _ _ _ (fun hh => hjj hh.symm)] at hgj
          exact hInv.miss_disjoint i' j' ci cj ei mi ej mj hne' hgi hgj
            hpci hpcj eid hmi
        · intro j cj ej mj hgj hpcj eid hmem
          have hjj : j ≠ i := by
            rintro rfl
            rw [set_get?_same _ _ _ hilt] at hgj
            obtain rfl := Option.some.inj hgj
            cases hpcj
          rw [set_get?_other _ _ _ _ (fun hh => hjj hh.symm)] at hgj
          exact hInv.miss_reg j cj ej mj hgj hpcj eid hmem

theorem get?_map_own (f : α → β) (l : List α) (i : Nat) :
    (l.map f).get? i = (l.get? i).map f := by
  induction l generalizing i with
  | nil => cases i <;> rfl
  | cons x xs ih => cases i with
    | zero => rfl
    | succ n => exact ih n

/-- Every caller of a fresh group is at the start of `Do`. -/
theorem initState_pc (cs : List (C × List K × Loader C K V)) (i : Nat)
    (c : Caller C K V) (h : (initState cs).callers.get? i = some c) :
    c.pc = .start := by
  simp only [initState] at h
  rw [get?_map_own] at h
  cases ht : cs.get? i with
  | none => rw [ht] at h; cases h
  | some t =>
    rw [ht] at h
    obtain rfl := Option.some.inj h
    rfl

/-- The initial state satisfies the machine invariant. -/
theorem inv_initState (cs : List (C × List K × Loader C K V)) :
    Inv (initState (K := K) (V := V) cs) := by
  refine ⟨⟨?_, ?_, ?_⟩, ?_, ?_, ?_⟩
  · intro k eid hmem; cases hmem
  · intro eid c hc _; cases hc
  · simp [initState]
  · intro k eid hmem; cases hmem
  · intro i j ci cj ei mi ej mj _ hgi _ hpci _ eid _
    rw [initState_pc cs i ci hgi] at hpci
    cases hpci
  · intro j cj ej mj hgj hpcj eid _
    rw [initState_pc cs j cj hgj] at hpcj
    cases hpcj

/-- Any machine step preserves the invariant. -/
theorem step_inv [DecidableEq K] (s s' : GState C K V) (hInv : Inv s)
    (h : StepR s s') : Inv s' := by
  obtain ⟨a, ha⟩ := h
  cases a with
  | reg i => exact stepRegister_inv s s' i hInv ha
  | dispatch i => exact stepDispatch_inv s s' i hInv ha
  | finish i => exact stepFinish_inv s s' i hInv ha

/-- The invariant holds in every reachable state. -/
theorem reach_inv [DecidableEq K] (s s' : GState C K V) (hInv : Inv s)
    (h : Reach s s') : Inv s' := by
  induction h with
  | refl => exact hInv
  | tail _ hstep ih => exact step_inv _ _ ih hstep

/-- A completed entry is never written again by any step (single writer:
its batch's dispatcher; all waiters read the same value/error). -/
theorem step_done_stable [DecidableEq K] (s s' : GState C K V) (hInv : Inv s)
    (h : StepR s s') (eid : Nat) (k : K) (r : Except GoErr V)
    (hd : s.heap.get? eid = some ⟨k, .done r⟩) :
    s'.heap.get? eid = some ⟨k, .done r⟩ := by
  obtain ⟨a, ha⟩ := h
  cases a with
  | reg i =>
    unfold stepAct stepRegister at ha
    cases hc : s.callers.get? i with
    | none => simp only [hc] at ha; cases ha
    | some c =>
      simp only [hc] at ha
      cases hpc : c.pc with
      | start =>
        simp only [hpc] at ha
        rcases hreg : registerKeys s.heap s.reg c.keys with ⟨heap', reg', ents, miss⟩
        simp only [hreg] at ha
        obtain rfl := Option.some.inj ha
        obtain ⟨_, ⟨ext, hext⟩, _, _, _, _⟩ :=
          registerKeys_spec c.keys s.heap s.reg heap' reg' ents miss hreg
            hInv.regInv
        show heap'.get? eid = _
        rw [hext]
        exact get?_append_of_some _ _ _ _ hd
      | registered e m => simp only [hpc] at ha; cases ha
      | loaded e => simp only [hpc] at ha; cases ha
      | finished rr => simp only [hpc] at ha; cases ha
  | dispatch i =>
    unfold stepAct stepDispatch at ha
    cases hc : s.callers.get? i with
    | none => simp only [hc] at ha; cases ha
    | some c =>
      simp only [hc] at ha
      cases hpc : c.pc with
      | start => simp only [hpc] at ha; cases ha
      | loaded e => simp only [hpc] at ha; cases ha
      | finished rr => simp only [hpc] at ha; cases ha
      | registered ents miss =>
        simp only [hpc] at ha
        cases hks : entKeys s.heap miss with
        | none => simp only [hks] at ha; cases ha
        | some ks =>
          simp only [hks] at ha
          obtain rfl := Option.some.inj ha
          have hmiss : eid ∉ miss := by
            intro hmiss
            obtain ⟨k', hk', _⟩ :=
              hInv.miss_reg i c ents miss hc hpc eid hmiss
            rw [hd] at hk'
            have heq := Option.some.inj hk'
            injection heq with h1 h2
            cases h2
          show (completeEnts _ s.heap miss).get? eid = _
          rw [completeEnts_get?_not_mem _ _ _ _ hmiss]
          exact hd
  | finish i =>
    unfold stepAct stepFinish at ha
    cases hc : s.callers.get? i with
    | none => simp only [hc] at ha; cases ha
    | some c =>
      simp only [hc] at ha
      cases hpc : c.pc with
      | start => simp only [hpc] at ha; cases ha
      | registered e m => simp only [hpc] at ha; cases ha
      | finished rr => simp only [hpc] at ha; cases ha
      | loaded ents =>
        simp only [hpc] at ha
        cases ho : entOutcomes s.heap ents with
        | none => simp only [ho] at ha; cases ha
        | some l =>
          simp only [ho] at ha
          obtain rfl := Option.some.inj ha
          exact hd

/-- A completed entry keeps its value/error in every later reachable
state. -/
theorem reach_done_stable [DecidableEq K] (s s' : GState C K V) (hInv : Inv s)
    (h : Reach s s') (eid : Nat) (k : K) (r : Except GoErr V)
    (hd : s.heap.get? eid = some ⟨k, .done r⟩) :
    s'.heap.get? eid = some ⟨k, .done r⟩ := by
  induction h with
  | refl => exact hd
  | tail hpre hstep ih =>
    exact step_done_stable _ _ (reach_inv _ _ hInv hpre) hstep eid k r ih

/-! ## Concurrency claims. -/

/-- C5: in every state reachable by any interleaving of callers on a fresh
group, a key is bound in the registry iff an allocated entry with that key
is pending (completion removes the entry in the same critical section),
and once every caller's `Do` has returned, the registry is empty. -/
theorem registry_tracks_pending [DecidableEq K]
    (cs : List (C × List K × Loader C K V)) (s : GState C K V)
    (hs : Reach (initState cs) s) :
    (∀ k : K, (∃ eid, (k, eid) ∈ s.reg) ↔
      (∃ eid c, s.heap.get? eid = some c ∧ c.key = k ∧
        c.status = .pending)) ∧
    ((∀ c ∈ s.callers, ∃ res, c.pc = .finished res) → s.reg = []) := by
  have hInv := reach_inv _ _ (inv_initState cs) hs
  constructor
  · intro k
    constructor
    · rintro ⟨eid, hmem⟩
      exact ⟨eid, ⟨k, .pending⟩, hInv.regInv.1 k eid hmem, rfl, rfl⟩
    · rintro ⟨eid, c, hc, rfl, hp⟩
      exact ⟨eid, hInv.regInv.2.1 eid c hc hp⟩
  · intro hdone
    rcases hreg : s.reg with _ | ⟨p, rest⟩
    · rfl
    · exfalso
      obtain ⟨j, cj, ej, mj, hj, hjpc, _⟩ :=
        hInv.reg_owned p.1 p.2 (by rw [hreg]; exact List.mem_cons_self _ _)
      obtain ⟨res, hres⟩ := hdone cj (List.get?_mem hj)
      rw [hres] at hjpc
      cases hjpc

/-- Witness for C5, on the fully finished demo interleaving of two
overlapping callers (`[1,2]` and `[2,3]`). -/
theorem registry_tracks_pending_witness :
    (∀ k : Nat, (∃ eid, (k, eid) ∈ demo6.reg) ↔
      (∃ eid c, demo6.heap.get? eid = some c ∧ c.key = k ∧
        c.status = .pending)) ∧
    ((∀ c ∈ demo6.callers, ∃ res, c.pc = .finished res) → demo6.reg = []) :=
  registry_tracks_pending demoCs demo6
    (Relation.ReflTransGen.tail (Relation.ReflTransGen.tail
      (Relation.ReflTransGen.tail (Relation.ReflTransGen.tail
        (Relation.ReflTransGen.tail
          (Relation.ReflTransGen.single ⟨Act.reg 0, rfl⟩)
          ⟨Act.reg 1, rfl⟩)
        ⟨Act.dispatch 0, rfl⟩)
      ⟨Act.dispatch 1, rfl⟩)
    ⟨Act.finish 0, rfl⟩)
    ⟨Act.finish 1, rfl⟩)

/-- C9: under any interleaving, the pending miss batches of two distinct
callers never contain a common key — so while several callers await
overlapping key sets, each shared key is being loaded by at most one
loader invocation, the one whose entry all of them wait on — and a
completed entry never changes, so every caller waiting on it receives the
same result. -/
theorem coalesced_loading [DecidableEq K]
    (cs : List (C × List K × Loader C K V)) (s : GState C K V)
    (hs : Reach (initState cs) s) :
    (∀ i j ci cj ei mi ej mj ksi ksj, i ≠ j →
      s.callers.get? i = some ci → s.callers.get? j = some cj →
      ci.pc = .registered ei mi → cj.pc = .registered ej mj →
      entKeys s.heap mi = some ksi → entKeys s.heap mj = some ksj →
      ∀ k, k ∈ ksi → k ∉ ksj) ∧
    (∀ s', Reach s s' → ∀ eid k r,
      s.heap.get? eid = some ⟨k, .done r⟩ →
      s'.heap.get? eid = some ⟨k, .done r⟩) := by
  have hInv := reach_inv _ _ (inv_initState cs) hs
  constructor
  · intro i j ci cj ei mi ej mj ksi ksj hne hgi hgj hpci hpcj hki hkj k hmem
    intro hmem'
    obtain ⟨eidi, hmi, c1, hc1, hkey1⟩ :=
      entKeys_mem_of_key s.heap mi ksi hki k hmem
    obtain ⟨eidj, hmj, c2, hc2, hkey2⟩ :=
      entKeys_mem_of_key s.heap mj ksj hkj k hmem'
    obtain ⟨k1, hk1, hr1⟩ := hInv.miss_reg i ci ei mi hgi hpci eidi hmi
    obtain ⟨k2, hk2, hr2⟩ := hInv.miss_reg j cj ej mj hgj hpcj eidj hmj
    rw [hk1] at hc1
    obtain rfl := Option.some.inj hc1
    rw [hk2] at hc2
    obtain rfl := Option.some.inj hc2
    have hkk1 : k1 = k := hkey1
    have hkk2 : k2 = k := hkey2
    have hr1' : (k, eidi) ∈ s.reg := hkk1 ▸ hr1
    have hr2' : (k, eidj) ∈ s.reg := hkk2 ▸ hr2
    have heid : eidi = eidj :=
      nodup_fst_key_unique s.reg hInv.regInv.2.2 k eidi eidj hr1' hr2'
    exact hInv.miss_disjoint i j ci cj ei mi ej mj hne hgi hgj hpci hpcj
      eidi hmi (by rw [heid]; exact hmj)
  · intro s' hs' eid k r hd
    exact reach_done_stable s s' hInv hs' eid k r hd

/-- Witness for C9, on the demo interleaving after both overlapping
callers have registered: their in-flight miss batches (`{1,2}` and `{3}`)
share no key although both callers requested key 2. -/
theorem coalesced_loading_witness :
    (∀ i j ci cj ei mi ej mj ksi ksj, i ≠ j →
      demo2.callers.get? i = some ci → demo2.callers.get? j = some cj →
      ci.pc = .registered ei mi → cj.pc = .registered ej mj →
      entKeys demo2.heap mi = some ksi → entKeys demo2.heap mj = some ksj →
      ∀ k, k ∈ ksi → k ∉ ksj) ∧
    (∀ s', Reach demo2 s' → ∀ eid k r,
      demo2.heap.get? eid = some ⟨k, .done r⟩ →
      s'.heap.get? eid = some ⟨k, .done r⟩) :=
  coalesced_loading demoCs demo2
    (Relation.ReflTransGen.tail
      (Relation.ReflTransGen.single ⟨Act.reg 0, rfl⟩)
      ⟨Act.reg 1, rfl⟩)

end Multiflight
